import Mathlib

set_option maxRecDepth 100000

/-!
Shallow embedding of the commit-reconciliation and cache-durability core of
`scripts/generate-stats.py`.  Loosely-typed JSON records are modelled by the
`JValue` type; Python dictionaries are association lists (`Jobj`) with
first-match lookup.  External effects (the GitHub API, `git` subprocesses,
the wall clock) are passed in as explicit parameters.
-/

/-- JSON-like value, as manipulated by the Python script: a string, an
integer, an object (dict) or an array (list). -/
inductive JValue where
  | str (s : String)
  | num (n : Int)
  | obj (fields : List (String × JValue))
  | arr (elems : List JValue)

/-- A Python dict with string keys, as an association list. -/
abbrev Jobj := List (String × JValue)

/-- Dict lookup (`d.get(k)` / `d[k]`): first matching key, if any. -/
def jget (o : Jobj) (k : String) : Option JValue :=
  match o with
  | [] => none
  | (k2, v) :: rest => if k2 = k then some v else jget rest k

/-- Dict assignment `d[k] = v`: replace an existing key in place, otherwise
append at the end (Python dicts preserve insertion order). -/
def jset (o : Jobj) (k : String) (v : JValue) : Jobj :=
  if o.any (fun p => p.1 = k) then
    o.map (fun p => if p.1 = k then (k, v) else p)
  else o ++ [(k, v)]

/-- Python `dict.get(k, {})` followed by an `isinstance(..., dict)` check:
a missing key yields the (empty) default dict, a non-dict value fails. -/
def jgetObjD (o : Jobj) (k : String) : Option Jobj :=
  match jget o k with
  | some (JValue.obj fields) => some fields
  | none => some []
  | some _ => none

/-- Per-repository cache mapping (`CacheData`): repo name to record list. -/
abbrev CacheData := List (String × List Jobj)

/-- Lookup of one repository's record list in the cache mapping. -/
def cacheGet (cd : CacheData) (repo : String) : Option (List Jobj) :=
  match cd with
  | [] => none
  | (k, v) :: rest => if k = repo then some v else cacheGet rest repo

/-- Dict assignment at the cache level (`cache_data[repo] = items`). -/
def cacheSet (cd : CacheData) (repo : String) (items : List Jobj) : CacheData :=
  if cd.any (fun p => p.1 = repo) then
    cd.map (fun p => if p.1 = repo then (repo, items) else p)
  else cd ++ [(repo, items)]

/-- Dict deletion (`del cache_data[repo]`). -/
def cacheDel (cd : CacheData) (repo : String) : CacheData :=
  cd.filter (fun p => ¬ (p.1 = repo))

/-- Python set insertion, on a duplicate-free list model of a set. -/
def listInsert (s : String) (l : List String) : List String :=
  if s ∈ l then l else s :: l

/-- Code-point comparison of character lists: Python's lexicographic `<` on
strings. -/
def charListLtB : List Char → List Char → Bool
  | [], [] => false
  | [], _ :: _ => true
  | _ :: _, [] => false
  | a :: as, b :: bs =>
    if a.toNat < b.toNat then true
    else if b.toNat < a.toNat then false
    else charListLtB as bs

/-- Code-point comparison of character lists: Python's lexicographic `<=` on
strings. -/
def charListLeB : List Char → List Char → Bool
  | [], _ => true
  | _ :: _, [] => false
  | a :: as, b :: bs =>
    if a.toNat < b.toNat then true
    else if b.toNat < a.toNat then false
    else charListLeB as bs

/-- Python string `<`. -/
def pyStrLt (a b : String) : Bool := charListLtB a.data b.data

/-- Python string `<=`. -/
def pyStrLe (a b : String) : Bool := charListLeB a.data b.data

/-- Split on a single-character separator, keeping empty parts, as Python
`str.split(sep)` does (the script only splits on `/`, newline and tab). -/
def splitOnChar (sep : Char) : List Char → List (List Char)
  | [] => [[]]
  | c :: rest =>
    let r := splitOnChar sep rest
    if c = sep then [] :: r
    else
      match r with
      | g :: gs => (c :: g) :: gs
      | [] => [[c]]

/-- String-level wrapper of `splitOnChar`. -/
def strSplitOnChar (sep : Char) (s : String) : List String :=
  (splitOnChar sep s.data).map (fun l => String.mk l)

/-- Whitespace test of Python `str.strip` (space, tab, LF, CR). -/
def isPyWs (c : Char) : Bool :=
  c.toNat = 32 ∨ c.toNat = 9 ∨ c.toNat = 10 ∨ c.toNat = 13

/-- Python `str.strip()`: drop whitespace at both ends. -/
def pyStrip (s : String) : String :=
  String.mk (((s.data.dropWhile isPyWs).reverse.dropWhile isPyWs).reverse)

/-- Python `str.lower()` on (ASCII) filenames. -/
def strLower (s : String) : String := String.mk (s.data.map Char.toLower)

/-- Character-list equality by code point. -/
def charListEqB : List Char → List Char → Bool
  | [], [] => true
  | a :: as, b :: bs => if a.toNat = b.toNat then charListEqB as bs else false
  | _, _ => false

/-- Python `str.endswith(suffix)`. -/
def strEndsWithB (s suffix : String) : Bool :=
  if suffix.data.length ≤ s.data.length then
    charListEqB (s.data.drop (s.data.length - suffix.data.length)) suffix.data
  else false

/-- Decimal digit parse of a non-empty character list. -/
def digitsToNat (l : List Char) : Option Nat :=
  match l with
  | [] => none
  | _ =>
    l.foldl
      (fun acc c =>
        match acc with
        | none => none
        | some n =>
          if 48 ≤ c.toNat ∧ c.toNat ≤ 57 then some (n * 10 + (c.toNat - 48))
          else none)
      (some 0)

/-- Python `int()` as applied to `git show --numstat` count fields: an
optional leading minus sign followed by decimal digits. -/
def parsePyInt (s : String) : Option Int :=
  match s.data with
  | '-' :: rest => (digitsToNat rest).map (fun n => -(n : Int))
  | l => (digitsToNat l).map (fun n => (n : Int))

/-- Fixed image-extension list (`IMAGE_EXTENSIONS`). -/
def IMAGE_EXTENSIONS : List String :=
  [".png", ".jpg", ".jpeg", ".gif", ".bmp", ".svg", ".webp", ".ico"]

/-- Page size of the GitHub commit listing (`PER_PAGE`). -/
def PER_PAGE : Nat := 100

/-- `is_image_file`: the lower-cased filename ends with a recognized image
extension. -/
def is_image_file (filename : String) : Bool :=
  IMAGE_EXTENSIONS.any (fun ext => strEndsWithB (strLower filename) ext)

/-- `extract_sha_from_cache_item` in its list-format branch (the only branch
the cache pipeline exercises): take the last `/`-separated component of the
record's `url` field; a missing, empty or non-string url yields `""`. -/
def extract_sha_from_cache_item (item : Jobj) : String :=
  match jget item "url" with
  | some (JValue.str u) => if u = "" then "" else (strSplitOnChar '/' u).getLastD ""
  | none => ""
  | some _ => ""

/-- Authorship date of a canonical commit object, as read by
`_extract_commit_timestamps`: `commit["commit"]["author"]["date"]` with
empty-dict defaults; only a non-empty string counts. -/
def commitAuthorDate (commit : Jobj) : Option String :=
  match jgetObjD commit "commit" with
  | some cd =>
    match jgetObjD cd "author" with
    | some ad =>
      match jget ad "date" with
      | some (JValue.str s) => if s = "" then none else some s
      | _ => none
    | none => none
  | none => none

/-- One step of the `_extract_commit_timestamps` loop over canonical
commits: collect the string `sha` and update the running min/max of the
authorship timestamps (an empty string means "not seen yet"). -/
def extractTimestampsStep (acc : List String × String × String) (commit : Jobj) :
    List String × String × String :=
  let shas := match jget commit "sha" with
    | some (JValue.str s) => listInsert s acc.1
    | _ => acc.1
  match commitAuthorDate commit with
  | some ts =>
    (shas,
     (if acc.2.1 = "" ∨ pyStrLt ts acc.2.1 = true then ts else acc.2.1),
     (if acc.2.2 = "" ∨ pyStrLt acc.2.2 ts = true then ts else acc.2.2))
  | none => (shas, acc.2.1, acc.2.2)

/-- `_extract_commit_timestamps`: SHA set plus min and max authorship
timestamp of the canonical commit list. -/
def extract_commit_timestamps (commits : List Jobj) : List String × String × String :=
  commits.foldl extractTimestampsStep ([], "", "")

/-- SHA set of the canonical commit list. -/
def shaSetOf (commits : List Jobj) : List String :=
  (extract_commit_timestamps commits).1

/-- Minimum authorship timestamp of the canonical commit list ("" if none). -/
def minTsOf (commits : List Jobj) : String :=
  (extract_commit_timestamps commits).2.1

/-- Maximum authorship timestamp of the canonical commit list ("" if none). -/
def maxTsOf (commits : List Jobj) : String :=
  (extract_commit_timestamps commits).2.2

/-- The `timestamp` field of a cached record as `_partition_cached_items`
reads it: `item.get("timestamp", "")` followed by an `isinstance(..., str)`
check (a missing key passes as `""`, a non-string value fails). -/
def itemTs (item : Jobj) : Option String :=
  match jget item "timestamp" with
  | some (JValue.str s) => some s
  | none => some ""
  | some _ => none

/-- `_partition_cached_items`: split cached records into the in-range and
out-of-range groups.  Only in API-fallback mode, with both range bounds
known, does a record dated strictly before the minimum go out of range;
records whose timestamp is not a string fall into neither group. -/
def partition_cached_items (cached : List Jobj) (minT maxT : String)
    (isApiFallback : Bool) : List Jobj × List Jobj :=
  match cached with
  | [] => ([], [])
  | item :: rest =>
    let r := partition_cached_items rest minT maxT isApiFallback
    match itemTs item with
    | some ts =>
      if isApiFallback = true ∧ minT ≠ "" ∧ maxT ≠ "" ∧ pyStrLt ts minT = true then
        (r.1, item :: r.2)
      else (item :: r.1, r.2)
    | none => r

/-- SHA set of the in-range cached records (skipping empty SHAs), as built
by the set comprehension in `clean_stale_cache`. -/
def cachedShasOf (items : List Jobj) : List String :=
  items.foldl
    (fun acc it =>
      let s := extract_sha_from_cache_item it
      if s = "" then acc else listInsert s acc)
    []

/-- `clean_stale_cache`: evict cached records whose SHA disappeared from the
canonical set within the observed window; in API-fallback mode records dated
before the window are kept; an emptied repository entry is deleted. -/
def clean_stale_cache (cd : CacheData) (currentCommits : List Jobj)
    (repoKey : String) (isApiFallback : Bool) : CacheData :=
  match cacheGet cd repoKey with
  | none => cd
  | some cachedItems =>
    let currentSet := shaSetOf currentCommits
    let minT := minTsOf currentCommits
    let maxT := maxTsOf currentCommits
    let part := partition_cached_items cachedItems minT maxT isApiFallback
    let staleCommits :=
      (cachedShasOf part.1).filter (fun s => ¬ s ∈ currentSet)
    if staleCommits = [] then cd
    else
      let newList := part.2 ++
        part.1.filter (fun it => ¬ extract_sha_from_cache_item it ∈ staleCommits)
      if newList.isEmpty then cacheDel cd repoKey else cacheSet cd repoKey newList

/-- `extract_author_from_commit`: build the identity string
`Name <email>` when both name and email are non-empty strings. -/
def extract_author_from_commit (commit : Jobj) : Option String :=
  match jgetObjD commit "commit" with
  | none => none
  | some cd =>
    match jgetObjD cd "author" with
    | none => none
    | some ad =>
      match jget ad "name", jget ad "email" with
      | some (JValue.str name), some (JValue.str email) =>
        if name ≠ "" ∧ email ≠ "" then some (name ++ " <" ++ email ++ ">") else none
      | _, _ => none

/-- Outcome of one paged GitHub API request, as the script observes it:
a non-zero curl return code, undecodable JSON, or a decoded commit list. -/
inductive ApiResult where
  | fail
  | badJson
  | ok (commits : List Jobj)

/-- Loop of `learn_author_identities_from_api` over pages 1..3: a transport
failure, a JSON decode error or an empty page breaks the loop, returning the
identities accumulated so far; a short page (below `PER_PAGE`) also ends the
pagination after being consumed.  The fuel argument bounds the recursion and
is chosen so that it never runs out before the `page > 3` test does. -/
def learnPages : Nat → (Nat → ApiResult) → Nat → List String → List String
  | 0, _, _, acc => acc
  | fuel + 1, api, page, acc =>
    if page > 3 then acc
    else
      match api page with
      | ApiResult.fail => acc
      | ApiResult.badJson => acc
      | ApiResult.ok commits =>
        if commits.isEmpty then acc
        else
          let acc2 := commits.foldl
            (fun a c =>
              match extract_author_from_commit c with
              | some identity => listInsert identity a
              | none => a)
            acc
          if commits.length < PER_PAGE then acc2
          else learnPages fuel api (page + 1) acc2

/-- `learn_author_identities_from_api`, with the paged API as a parameter:
starts at page 1 with an empty identity set. -/
def learn_author_identities_from_api (api : Nat → ApiResult) : List String :=
  learnPages 3 api 1 []

/-- Non-empty stripped lines of a command output
(`[line.strip() for line in output.split("\n") if line.strip()]`). -/
def parseLines (output : String) : List String :=
  ((strSplitOnChar '\n' output).map pyStrip).filter (fun l => l ≠ "")

/-- Consecutive line pairing of `get_commits_from_git_log`: lines are taken
two at a time as (sha, ISO timestamp); a trailing unpaired line is dropped. -/
def pairUp : List String → List (String × String)
  | a :: b :: rest => (a, b) :: pairUp rest
  | _ => []

/-- Commit object built by `get_commits_from_git_log`, API-compatible shape:
`{"sha": sha, "commit": {"author": {"date": date}}}`. -/
def mkCommit (sha date : String) : Jobj :=
  [("sha", JValue.str sha),
   ("commit", JValue.obj [("author", JValue.obj [("date", JValue.str date)])])]

/-- Loop of `get_commits_from_git_log` over the known identities: each
identity runs one `git log` invocation (modelled by its `(stdout, returncode)`
result); a non-zero return code skips the identity; SHAs already seen are
skipped, so every commit enters the list at most once. -/
def collectCommits (gitLog : String → String × Int) :
    List String → List String → List Jobj → List String × List Jobj
  | [], seen, acc => (seen, acc)
  | author :: rest, seen, acc =>
    let out := gitLog author
    if out.2 ≠ 0 then collectCommits gitLog rest seen acc
    else
      let pairs := pairUp (parseLines out.1)
      let r := pairs.foldl
        (fun (st : List String × List Jobj) p =>
          if p.1 ∈ st.1 then st
          else (p.1 :: st.1, st.2 ++ [mkCommit p.1 p.2]))
        (seen, acc)
      collectCommits gitLog rest r.1 r.2

/-- Result of the local-history read: the two distinct `return None` sites of
`get_commits_from_git_log` (no known identities / no commit matched) and the
success case carrying a non-empty commit list. -/
inductive GitLogResult where
  | noIdentity
  | noData
  | ok (commits : List Jobj)

/-- `get_commits_from_git_log` with the known-identity set (in iteration
order) and the `git log` subprocess as parameters. -/
def get_commits_from_git_log (identities : List String)
    (gitLog : String → String × Int) : GitLogResult :=
  if identities.isEmpty then GitLogResult.noIdentity
  else
    let cs := (collectCommits gitLog identities [] []).2
    if cs.isEmpty then GitLogResult.noData else GitLogResult.ok cs

/-- Tail of `_fetch_commits_with_fallback`: use the API commit list when it
is non-empty (`is_api_fallback = true`), otherwise report no commits. -/
def apiFallbackResult (apiCommits : List Jobj) : List Jobj × Bool :=
  if apiCommits.isEmpty then ([], false) else (apiCommits, true)

/-- `_fetch_commits_with_fallback`, with the results of the two sources as
parameters: when a local repository path exists and `git log` produced a
non-empty commit list, that list is returned as-is (`is_api_fallback =
false`); only otherwise is the API listing consulted. -/
def fetch_commits_with_fallback (hasRepoPath : Bool)
    (gitLogResult : GitLogResult) (apiCommits : List Jobj) : List Jobj × Bool :=
  if hasRepoPath then
    match gitLogResult with
    | GitLogResult.ok cs =>
      if cs.isEmpty then apiFallbackResult apiCommits else (cs, false)
    | _ => apiFallbackResult apiCommits
  else apiFallbackResult apiCommits

/-- Status map built from `git show --name-status` output: tab-separated
lines with at least two fields map filename to status letter (later lines
overwrite earlier ones, as dict assignment does). -/
def statusMapOf (statusOutput : String) : List (String × String) :=
  (strSplitOnChar '\n' statusOutput).foldl
    (fun m line =>
      if pyStrip line = "" then m
      else
        let parts := strSplitOnChar '\t' line
        match parts with
        | status :: filename :: _ =>
          if m.any (fun p => p.1 = filename) then
            m.map (fun p => if p.1 = filename then (filename, status) else p)
          else m ++ [(filename, status)]
        | _ => m)
    []

/-- Lookup in the status map with the `"modified"` default
(`status_map.get(filename, "modified")`). -/
def statusLookup (m : List (String × String)) (filename : String) : String :=
  match m.find? (fun p => p.1 = filename) with
  | some p => p.2
  | none => "modified"

/-- Numeric parse of one `--numstat` count: `"-"` (binary file) counts as 0;
anything unparsable fails the whole line. -/
def numstatCount (s : String) : Option Int :=
  if s = "-" then some 0 else parsePyInt s

/-- One `--numstat` line turned into a file record of the commit detail,
using the status map: status letter `A` becomes `"added"`, everything else
`"modified"`.  Lines with fewer than three fields or unparsable counts are
skipped. -/
def numstatEntry (statusMap : List (String × String)) (parts : List String) :
    Option Jobj :=
  match parts with
  | addS :: delS :: filename :: _ =>
    match numstatCount addS, numstatCount delS with
    | some addCount, some delCount =>
      some
        [("additions", JValue.num addCount),
         ("deletions", JValue.num delCount),
         ("filename", JValue.str filename),
         ("status",
          JValue.str
            (if statusLookup statusMap filename = "A" then "added" else "modified"))]
    | _, _ => none
  | _ => none

/-- `_get_commit_details_from_git`, as a pure function of the two `git show`
outputs and the `--numstat` return code: a failing `--numstat` yields an
empty detail object (no `files` key); otherwise each well-formed numstat
line becomes one file record. -/
def get_commit_details_from_git (statusOutput numstatOutput : String)
    (numstatReturncode : Int) : Jobj :=
  if numstatReturncode ≠ 0 then []
  else
    let statusMap := statusMapOf statusOutput
    let files := (strSplitOnChar '\n' numstatOutput).foldl
      (fun fs line =>
        if pyStrip line = "" then fs
        else
          match numstatEntry statusMap (strSplitOnChar '\t' line) with
          | some f => fs ++ [JValue.obj f]
          | none => fs)
      []
    [("files", JValue.arr files)]

/-- File list of a commit detail object, as `_calculate_commit_stats` reads
it: `commit_data.get("files", [])` with an `isinstance(..., list)` check;
the iteration then treats each element as a dict. -/
def filesOf (commitData : Jobj) : List Jobj :=
  match jget commitData "files" with
  | some (JValue.arr elems) =>
    elems.foldl
      (fun fs e =>
        match e with
        | JValue.obj f => fs ++ [f]
        | _ => fs)
      []
  | none => []
  | some _ => []

/-- Whether `_calculate_commit_stats` counts a file toward `images`: change
status equal to the string `"added"` and a string filename recognized by
`is_image_file` (a missing filename defaults to `""`, which never matches). -/
def imageAddedFile (f : Jobj) : Bool :=
  (match jget f "status" with
   | some (JValue.str s) => s = "added"
   | _ => false) &&
  (match jget f "filename" with
   | some (JValue.str s) => is_image_file s
   | _ => false)

/-- Integer field of a record with default 0
(`x.get(k, 0)` plus `isinstance(..., int)`). -/
def intFieldD (o : Jobj) (k : String) : Int :=
  match jget o k with
  | some (JValue.num n) => n
  | _ => 0

/-- One file of the `_calculate_commit_stats` loop: accumulate integer
addition/deletion counts and the image-added flag. -/
def calcStatsStep (includeImages : Bool) (acc : Int × Int × Int) (f : Jobj) :
    Int × Int × Int :=
  (acc.1 + intFieldD f "additions",
   acc.2.1 + intFieldD f "deletions",
   acc.2.2 + if includeImages && imageAddedFile f then 1 else 0)

/-- `_calculate_commit_stats`: `(additions, deletions, images)` of one
commit detail object. -/
def calculate_commit_stats (commitData : Jobj) (includeImages : Bool) :
    Int × Int × Int :=
  (filesOf commitData).foldl (calcStatsStep includeImages) (0, 0, 0)

/-- `_get_commit_timestamp`, with the wall clock passed in: the commit's
truthy `commit.author.date` value if present, else the current time. -/
def get_commit_timestamp (commit : Jobj) (now : String) : JValue :=
  match jgetObjD commit "commit" with
  | none => JValue.str now
  | some cd =>
    match jgetObjD cd "author" with
    | none => JValue.str now
    | some ad =>
      match jget ad "date" with
      | some (JValue.str s) => if s = "" then JValue.str now else JValue.str s
      | some (JValue.num n) => if n = 0 then JValue.str now else JValue.num n
      | some (JValue.obj f) => if f.isEmpty then JValue.str now else JValue.obj f
      | some (JValue.arr e) => if e.isEmpty then JValue.str now else JValue.arr e
      | none => JValue.str now

/-- `_find_cached_commit`: first record of the repository whose `url` field
equals the commit url. -/
def find_cached_commit (cd : CacheData) (repoName commitUrl : String) :
    Option Jobj :=
  match cacheGet cd repoName with
  | none => none
  | some items =>
    items.find?
      (fun it =>
        match jget it "url" with
        | some (JValue.str u) => u = commitUrl
        | _ => false)

/-- Record appended to the cache for a freshly computed commit. -/
def mkCacheRecord (idx : Nat) (url : String) (adds dels imgs : Int)
    (ts : JValue) : Jobj :=
  [("index", JValue.num (Int.ofNat idx)),
   ("url", JValue.str url),
   ("additions", JValue.num adds),
   ("deletions", JValue.num dels),
   ("images", JValue.num imgs),
   ("timestamp", ts)]

/-- Append one record to a repository's cache list, creating the (empty)
list first when the repository has no entry yet. -/
def cacheAppend (cd : CacheData) (repo : String) (rec : Jobj) : CacheData :=
  if cd.any (fun p => p.1 = repo) then
    cd.map (fun p => if p.1 = repo then (p.1, p.2 ++ [rec]) else p)
  else cd ++ [(repo, [rec])]

/-- Running state of the `_process_all_commits` loop. -/
structure ProcAcc where
  cache : CacheData
  totA : Int
  totD : Int
  totI : Int
  hits : Nat
  misses : Nat
  processed : Nat

/-- One iteration of `_process_all_commits`: commits without a non-empty
string `sha` are skipped; a cache hit adds the stored integer fields to the
totals and leaves the cache untouched; a cache miss fetches the commit
detail (local git when a repository path exists, else the API), computes the
stats and appends a new record. -/
def processCommitStep (owner repoName : String) (hasRepoPath : Bool)
    (gitDetails apiDetails : String → Jobj) (includeImages : Bool)
    (now : String) (acc : ProcAcc) (commit : Jobj) : ProcAcc :=
  match jget commit "sha" with
  | some (JValue.str sha) =>
    if sha = "" then acc
    else
      let processed2 := acc.processed + 1
      let url := "https://github.com/" ++ owner ++ "/" ++ repoName ++
        "/commit/" ++ sha
      match find_cached_commit acc.cache repoName url with
      | some cached =>
        { acc with
          totA := acc.totA + intFieldD cached "additions"
          totD := acc.totD + intFieldD cached "deletions"
          totI := acc.totI + intFieldD cached "images"
          hits := acc.hits + 1
          processed := processed2 }
      | none =>
        let details := if hasRepoPath then gitDetails sha else apiDetails sha
        let stats := calculate_commit_stats details includeImages
        { cache := cacheAppend acc.cache repoName
            (mkCacheRecord processed2 url stats.1 stats.2.1 stats.2.2
              (get_commit_timestamp commit now))
          totA := acc.totA + stats.1
          totD := acc.totD + stats.2.1
          totI := acc.totI + stats.2.2
          hits := acc.hits
          misses := acc.misses + 1
          processed := processed2 }
  | _ => acc

/-- `_process_all_commits`: fold the per-commit step over the canonical
commit list, starting from the loaded (already reconciled) cache. -/
def process_all_commits (owner repoName : String) (hasRepoPath : Bool)
    (gitDetails apiDetails : String → Jobj) (includeImages : Bool)
    (now : String) (allCommits : List Jobj) (cacheData : CacheData) : ProcAcc :=
  allCommits.foldl
    (processCommitStep owner repoName hasRepoPath gitDetails apiDetails
      includeImages now)
    { cache := cacheData, totA := 0, totD := 0, totI := 0,
      hits := 0, misses := 0, processed := 0 }

/-- Sort key of `sort_and_reindex_commits`: `str(x.get("timestamp", ""))`.
A missing key stringifies as the default `""`; containers (never produced by
this pipeline) are abstracted to `""`. -/
def tsKey (item : Jobj) : String :=
  match jget item "timestamp" with
  | some (JValue.str s) => s
  | some (JValue.num n) => toString n
  | some _ => ""
  | none => ""

/-- Ordering relation used to sort a repository's records: ascending on the
stringified timestamp (a stable insertion sort models Python `sorted`). -/
def tsLe (a b : Jobj) : Prop := pyStrLe (tsKey a) (tsKey b) = true

instance : DecidableRel tsLe := fun a b => by
  unfold tsLe
  infer_instance

/-- Index reassignment of `sort_and_reindex_commits`:
`commit["index"] = idx` for `idx` counting up from the start value. -/
def reindexFrom : Nat → List Jobj → List Jobj
  | _, [] => []
  | i, c :: rest => jset c "index" (JValue.num (Int.ofNat i)) :: reindexFrom (i + 1) rest

/-- `sort_and_reindex_commits`: per repository, sort the records by the
stringified timestamp (ascending) and renumber `index` from 1. -/
def sort_and_reindex_commits (cd : CacheData) : CacheData :=
  cd.map (fun p => (p.1, reindexFrom 1 (List.insertionSort tsLe p.2)))

/-- One record of the `calculate_cache_statistics` inner loop: add the
integer `additions` / `deletions` / `images` fields to the running sums. -/
def cacheStatsStep (acc : Int × Int × Int) (c : Jobj) : Int × Int × Int :=
  (acc.1 + intFieldD c "additions",
   acc.2.1 + intFieldD c "deletions",
   acc.2.2 + intFieldD c "images")

/-- `calculate_cache_statistics`: `(total_commits, total_additions,
total_deletions, total_images)` over every repository of the cache. -/
def calculate_cache_statistics (cd : CacheData) : Nat × Int × Int × Int :=
  cd.foldl
    (fun acc p =>
      let sums := p.2.foldl cacheStatsStep (acc.2.1, acc.2.2.1, acc.2.2.2)
      (acc.1 + p.2.length, sums.1, sums.2.1, sums.2.2))
    (0, 0, 0, 0)

/-- Aggregate `_metadata` block of a saved cache document. -/
structure CacheMetadata where
  total_commits : Nat
  total_additions : Int
  total_deletions : Int
  total_images : Int

/-- Document produced by `save_cache` (before JSON serialization): records
sorted and reindexed, and the metadata block recomputed from them. -/
def save_cache_doc (cacheData : CacheData) : CacheMetadata × CacheData :=
  let sortedData := sort_and_reindex_commits cacheData
  let stats := calculate_cache_statistics sortedData
  ({ total_commits := stats.1,
     total_additions := stats.2.1,
     total_deletions := stats.2.2.1,
     total_images := stats.2.2.2 },
   sortedData)

/-- All records of a cache mapping, in document order. -/
def recordsOf (cd : CacheData) : List Jobj :=
  (cd.map (fun p => p.2)).flatten

theorem cacheGet_any (cd : CacheData) (repo : String) (x : List Jobj)
    (h : cacheGet cd repo = some x) : cd.any (fun p => p.1 = repo) = true := by
  induction cd with
  | nil => simp [cacheGet] at h
  | cons hd tl ih =>
    simp only [cacheGet] at h
    by_cases hk : hd.1 = repo
    · simp [List.any_cons, hk]
    · rw [if_neg hk] at h
      simp [List.any_cons, ih h]

theorem cacheGet_map_set (cd : CacheData) (repo : String) (items : List Jobj)
    (h : cd.any (fun p => p.1 = repo) = true) :
    cacheGet (cd.map (fun p => if p.1 = repo then (repo, items) else p)) repo =
      some items := by
  induction cd with
  | nil => simp at h
  | cons hd tl ih =>
    simp only [List.map_cons]
    by_cases hk : hd.1 = repo
    · rw [if_pos hk]
      simp [cacheGet]
    · rw [if_neg hk]
      simp only [cacheGet]
      rw [if_neg hk]
      apply ih
      simp only [List.any_cons, Bool.or_eq_true, decide_eq_true_eq] at h
      rcases h with h | h
      · exact absurd h hk
      · exact h

theorem cacheGet_cacheSet (cd : CacheData) (repo : String)
    (items0 items : List Jobj) (h : cacheGet cd repo = some items0) :
    cacheGet (cacheSet cd repo items) repo = some items := by
  unfold cacheSet
  rw [if_pos (cacheGet_any cd repo items0 h)]
  exact cacheGet_map_set cd repo items (cacheGet_any cd repo items0 h)

theorem cacheGet_cacheDel (cd : CacheData) (repo : String) :
    cacheGet (cacheDel cd repo) repo = none := by
  induction cd with
  | nil => rfl
  | cons hd tl ih =>
    simp only [cacheDel, decide_not, List.filter_cons] at ih ⊢
    by_cases hk : hd.1 = repo
    · simp [hk, ih]
    · simp [hk, cacheGet, ih]

theorem mem_listInsert_self (s : String) (l : List String) : s ∈ listInsert s l := by
  unfold listInsert
  split <;> simp_all

theorem mem_listInsert_of_mem (x s : String) (l : List String) (h : x ∈ l) :
    x ∈ listInsert s l := by
  unfold listInsert
  split <;> simp_all

theorem not_mem_listInsert (x s : String) (l : List String) (h1 : x ≠ s)
    (h2 : ¬ x ∈ l) : ¬ x ∈ listInsert s l := by
  unfold listInsert
  split <;> simp_all

theorem mem_partition_out (cached : List Jobj) (minT maxT : String)
    (item : Jobj) (ts : String) (h2 : item ∈ cached) (h3 : itemTs item = some ts)
    (ha : minT ≠ "") (hb : maxT ≠ "") (hc : pyStrLt ts minT = true) :
    item ∈ (partition_cached_items cached minT maxT true).2 := by
  induction cached with
  | nil => simp at h2
  | cons hd tl ih =>
    rcases List.mem_cons.mp h2 with h | h
    · subst h
      simp only [partition_cached_items, h3]
      split
      · exact List.mem_cons_self _ _
      · next hcond => exact absurd ⟨by trivial, ha, hb, hc⟩ hcond
    · have hmem := ih h
      simp only [partition_cached_items]
      split
      · split
        · exact List.mem_cons_of_mem _ hmem
        · exact hmem
      · exact hmem

theorem mem_partition_in (cached : List Jobj) (minT maxT : String)
    (isApi : Bool) (item : Jobj) (ts : String) (h2 : item ∈ cached)
    (h3 : itemTs item = some ts)
    (hc : ¬ (isApi = true ∧ minT ≠ "" ∧ maxT ≠ "" ∧ pyStrLt ts minT = true)) :
    item ∈ (partition_cached_items cached minT maxT isApi).1 := by
  induction cached with
  | nil => simp at h2
  | cons hd tl ih =>
    rcases List.mem_cons.mp h2 with h | h
    · subst h
      simp only [partition_cached_items, h3]
      split
      · next hcond => exact absurd hcond hc
      · exact List.mem_cons_self _ _
    · have hmem := ih h
      simp only [partition_cached_items]
      split
      · split
        · exact hmem
        · exact List.mem_cons_of_mem _ hmem
      · exact hmem

theorem partition_out_ts (cached : List Jobj) (minT maxT : String)
    (isApi : Bool) (x : Jobj)
    (hx : x ∈ (partition_cached_items cached minT maxT isApi).2) :
    ∃ tsx, itemTs x = some tsx ∧ pyStrLt tsx minT = true := by
  induction cached with
  | nil => simp [partition_cached_items] at hx
  | cons hd tl ih =>
    simp only [partition_cached_items] at hx
    rcases hts : itemTs hd with _ | ts2
    · rw [hts] at hx
      exact ih hx
    · simp only [hts] at hx
      by_cases hcond : isApi = true ∧ minT ≠ "" ∧ maxT ≠ "" ∧ pyStrLt ts2 minT = true
      · rw [if_pos hcond] at hx
        rcases List.mem_cons.mp hx with h | h
        · subst h
          exact ⟨ts2, hts, hcond.2.2.2⟩
        · exact ih h
      · rw [if_neg hcond] at hx
        exact ih hx

theorem cachedShas_foldl_mono (items : List Jobj) (acc : List String)
    (x : String) (h : x ∈ acc) :
    x ∈ items.foldl
      (fun acc2 it =>
        let s := extract_sha_from_cache_item it
        if s = "" then acc2 else listInsert s acc2) acc := by
  induction items generalizing acc with
  | nil => exact h
  | cons hd tl ih =>
    simp only [List.foldl_cons]
    apply ih
    by_cases hs : extract_sha_from_cache_item hd = ""
    · simpa [hs] using h
    · simpa [hs] using mem_listInsert_of_mem _ _ _ h

theorem mem_cachedShasOf_aux (items : List Jobj) (acc : List String)
    (item : Jobj) (h2 : item ∈ items)
    (h4 : extract_sha_from_cache_item item ≠ "") :
    extract_sha_from_cache_item item ∈ items.foldl
      (fun acc2 it =>
        let s := extract_sha_from_cache_item it
        if s = "" then acc2 else listInsert s acc2) acc := by
  induction items generalizing acc with
  | nil => simp at h2
  | cons hd tl ih =>
    simp only [List.foldl_cons]
    rcases List.mem_cons.mp h2 with h | h
    · subst h
      apply cachedShas_foldl_mono
      simpa [h4] using mem_listInsert_self _ acc
    · exact ih _ h

theorem mem_cachedShasOf (items : List Jobj) (item : Jobj) (h2 : item ∈ items)
    (h4 : extract_sha_from_cache_item item ≠ "") :
    extract_sha_from_cache_item item ∈ cachedShasOf items :=
  mem_cachedShasOf_aux items [] item h2 h4

theorem empty_not_mem_cachedShas_aux (items : List Jobj) (acc : List String)
    (h : ¬ "" ∈ acc) :
    ¬ "" ∈ items.foldl
      (fun acc2 it =>
        let s := extract_sha_from_cache_item it
        if s = "" then acc2 else listInsert s acc2) acc := by
  induction items generalizing acc with
  | nil => exact h
  | cons hd tl ih =>
    simp only [List.foldl_cons]
    apply ih
    by_cases hs : extract_sha_from_cache_item hd = ""
    · simpa [hs] using h
    · simpa [hs] using not_mem_listInsert _ _ _ (fun he => hs he.symm) h

theorem empty_not_mem_cachedShasOf (items : List Jobj) :
    ¬ "" ∈ cachedShasOf items :=
  empty_not_mem_cachedShas_aux items [] (by simp)
theorem charListLeB_lt_false : ∀ x y, charListLeB x y = true → charListLtB y x = false := by
  intro x
  induction x with
  | nil =>
    intro y _
    cases y <;> rfl
  | cons a as ih =>
    intro y hxy
    cases y with
    | nil => simp [charListLeB] at hxy
    | cons b bs =>
      simp only [charListLeB] at hxy
      simp only [charListLtB]
      by_cases hab : a.toNat < b.toNat
      · have hba : ¬ b.toNat < a.toNat := by omega
        simp [hab, hba]
      · by_cases hba : b.toNat < a.toNat
        · simp [hab, hba] at hxy
        · simp only [hab, hba, if_false] at hxy
          simp [hab, hba, ih bs hxy]

theorem charListLeB_total : ∀ x y, charListLeB x y = true ∨ charListLeB y x = true := by
  intro x
  induction x with
  | nil =>
    intro y
    exact Or.inl rfl
  | cons a as ih =>
    intro y
    cases y with
    | nil => exact Or.inr rfl
    | cons b bs =>
      simp only [charListLeB]
      by_cases hab : a.toNat < b.toNat
      · have hba : ¬ b.toNat < a.toNat := by omega
        simp [hab, hba]
      · by_cases hba : b.toNat < a.toNat
        · simp [hab, hba]
        · simpa [hab, hba] using ih bs

theorem charListLeB_trans : ∀ x y z, charListLeB x y = true → charListLeB y z = true →
    charListLeB x z = true := by
  intro x
  induction x with
  | nil =>
    intro y z _ _
    rfl
  | cons a as ih =>
    intro y z hxy hyz
    cases y with
    | nil => simp [charListLeB] at hxy
    | cons b bs =>
      cases z with
      | nil => simp [charListLeB] at hyz
      | cons c cs =>
        simp only [charListLeB] at hxy hyz ⊢
        by_cases hab : a.toNat < b.toNat
        · by_cases hbc : b.toNat < c.toNat
          · have hac : a.toNat < c.toNat := by omega
            simp [hac]
          · by_cases hcb : c.toNat < b.toNat
            · simp [hbc, hcb] at hyz
            · have hac : a.toNat < c.toNat := by omega
              simp [hac]
        · by_cases hba : b.toNat < a.toNat
          · simp [hab, hba] at hxy
          · by_cases hbc : b.toNat < c.toNat
            · have hac : a.toNat < c.toNat := by omega
              simp [hac]
            · by_cases hcb : c.toNat < b.toNat
              · simp [hbc, hcb] at hyz
              · have hac1 : ¬ a.toNat < c.toNat := by omega
                have hac2 : ¬ c.toNat < a.toNat := by omega
                simp only [hab, hba, if_false] at hxy
                simp only [hbc, hcb, if_false] at hyz
                simp [hac1, hac2, ih bs cs hxy hyz]

theorem pyStrLe_lt_false (x y : String) (h : pyStrLe x y = true) :
    pyStrLt y x = false :=
  charListLeB_lt_false x.data y.data h
/-- Concrete cached record: sha `aaa`, timestamp 2020. -/
def itemOld : Jobj :=
  [("url", JValue.str "c/aaa"), ("timestamp", JValue.str "2020"),
   ("additions", JValue.num 5), ("deletions", JValue.num 1),
   ("images", JValue.num 0)]

/-- Concrete cached record: sha `ccc`, timestamp 2025 (inside the window). -/
def itemNew : Jobj :=
  [("url", JValue.str "c/ccc"), ("timestamp", JValue.str "2025"),
   ("additions", JValue.num 2), ("deletions", JValue.num 0),
   ("images", JValue.num 0)]

/-- Concrete cached record for sha `bbb`, which the canonical list contains. -/
def itemKeep : Jobj :=
  [("url", JValue.str "c/bbb"), ("timestamp", JValue.str "2024"),
   ("additions", JValue.num 1), ("deletions", JValue.num 0),
   ("images", JValue.num 0)]

/-- One-repository cache holding only the old record. -/
def cacheOld : CacheData := [("r", [itemOld])]

/-- Canonical commit list: a single commit `bbb` authored in 2024. -/
def commitsB : List Jobj := [mkCommit "bbb" "2024"]

/-- C1: the claim asserts that a cached record strictly older than the
canonical minimum timestamp is never evicted even when its sha is absent
from the canonical sha set, regardless of the data source.  The git-log
source refutes it: `clean_stale_cache` moves records out of eviction range
only in API-fallback mode, so in git-log mode (`is_api_fallback = False`)
the record with absent sha `aaa` and timestamp 2020 — strictly older than
the canonical minimum 2024 — is evicted, and the emptied repository entry is
deleted. -/
theorem c1_retention_counterexample :
    itemTs itemOld = some "2020" ∧
    minTsOf commitsB = "2024" ∧
    pyStrLt "2020" (minTsOf commitsB) = true ∧
    ¬ extract_sha_from_cache_item itemOld ∈ shaSetOf commitsB ∧
    cacheGet cacheOld "r" = some [itemOld] ∧
    cacheGet (clean_stale_cache cacheOld commitsB "r" false) "r" = none :=
  ⟨rfl, rfl, by decide, by decide, rfl, rfl⟩

/-- C1 (amended): a cached record with a string timestamp strictly older
than the canonical minimum authorship timestamp (with both range bounds
computed from the canonical list) is always retained by `clean_stale_cache`
when the canonical list came from the API-fallback source, even when its sha
is absent from the canonical sha set. -/
theorem c1_retention_api_fallback (cd : CacheData) (commits : List Jobj)
    (repo : String) (item : Jobj) (items : List Jobj) (ts : String)
    (h1 : cacheGet cd repo = some items) (h2 : item ∈ items)
    (h3 : itemTs item = some ts)
    (h4 : minTsOf commits ≠ "") (h5 : maxTsOf commits ≠ "")
    (h6 : pyStrLt ts (minTsOf commits) = true) :
    ∃ items2,
      cacheGet (clean_stale_cache cd commits repo true) repo = some items2 ∧
        item ∈ items2 := by
  have hout : item ∈ (partition_cached_items items (minTsOf commits)
      (maxTsOf commits) true).2 :=
    mem_partition_out items _ _ item ts h2 h3 h4 h5 h6
  simp only [clean_stale_cache, h1]
  split
  · exact ⟨items, h1, h2⟩
  · split
    · next hemp =>
      exfalso
      rw [List.isEmpty_iff] at hemp
      exact List.ne_nil_of_mem (List.mem_append_left _ hout) hemp
    · exact ⟨_, cacheGet_cacheSet cd repo items _ h1, List.mem_append_left _ hout⟩

/-- C2: a cached record with a string timestamp at or after the canonical
minimum authorship timestamp, whose (non-empty) sha is absent from the
canonical sha set, is always evicted by `clean_stale_cache`, in both the
git-log and the API-fallback mode. -/
theorem c2_eviction_law (cd : CacheData) (commits : List Jobj) (repo : String)
    (item : Jobj) (items : List Jobj) (ts : String) (isApi : Bool)
    (h1 : cacheGet cd repo = some items) (h2 : item ∈ items)
    (h3 : itemTs item = some ts)
    (h4 : extract_sha_from_cache_item item ≠ "")
    (h5 : ¬ extract_sha_from_cache_item item ∈ shaSetOf commits)
    (h6 : pyStrLe (minTsOf commits) ts = true) :
    ∀ items2,
      cacheGet (clean_stale_cache cd commits repo isApi) repo = some items2 →
        ¬ item ∈ items2 := by
  have hlt : pyStrLt ts (minTsOf commits) = false := pyStrLe_lt_false _ _ h6
  have hin : item ∈ (partition_cached_items items (minTsOf commits)
      (maxTsOf commits) isApi).1 := by
    apply mem_partition_in items _ _ isApi item ts h2 h3
    intro hcond
    rw [hcond.2.2.2] at hlt
    exact Bool.noConfusion hlt
  have hsha : extract_sha_from_cache_item item ∈
      cachedShasOf (partition_cached_items items (minTsOf commits)
        (maxTsOf commits) isApi).1 :=
    mem_cachedShasOf _ _ hin h4
  have hstalemem : extract_sha_from_cache_item item ∈
      (cachedShasOf (partition_cached_items items (minTsOf commits)
        (maxTsOf commits) isApi).1).filter
          (fun s => ¬ s ∈ shaSetOf commits) :=
    List.mem_filter.mpr ⟨hsha, by simpa using h5⟩
  have hnotout : ¬ item ∈ (partition_cached_items items (minTsOf commits)
      (maxTsOf commits) isApi).2 := by
    intro hmem
    obtain ⟨tsx, htsx, hltx⟩ := partition_out_ts _ _ _ _ _ hmem
    rw [h3] at htsx
    injection htsx with he
    rw [← he] at hltx
    rw [hltx] at hlt
    exact Bool.noConfusion hlt
  intro items2 hget hmem2
  simp only [clean_stale_cache, h1] at hget
  revert hget
  split
  · next hstale =>
    intro hget
    exact List.not_mem_nil _ (hstale ▸ hstalemem)
  · split
    · next hemp =>
      intro hget
      rw [cacheGet_cacheDel] at hget
      exact Option.noConfusion hget
    · next hemp =>
      intro hget
      rw [cacheGet_cacheSet cd repo items _ h1] at hget
      injection hget with he2
      rw [← he2] at hmem2
      rcases List.mem_append.mp hmem2 with hl | hr
      · exact hnotout hl
      · have hpred := (List.mem_filter.mp hr).2
        exact (of_decide_eq_true hpred) hstalemem
/-- Witness for the amended C1 theorem: in API-fallback mode the 2020 record
survives reconciliation against the 2024 canonical commit. -/
theorem c1_retention_api_fallback_witness :
    ∃ items2,
      cacheGet (clean_stale_cache cacheOld commitsB "r" true) "r" = some items2 ∧
        itemOld ∈ items2 :=
  c1_retention_api_fallback cacheOld commitsB "r" itemOld [itemOld] "2020" rfl
    (List.mem_cons_self _ _) rfl (by decide) (by decide) (by decide)

/-- Cache holding an in-window record for a vanished sha plus a record whose
sha the canonical list still contains. -/
def cacheNewKeep : CacheData := [("r", [itemNew, itemKeep])]

/-- Witness for C2: the in-window record with vanished sha `ccc` is evicted
while the record for the still-present sha `bbb` stays. -/
theorem c2_eviction_law_witness :
    cacheGet (clean_stale_cache cacheNewKeep commitsB "r" true) "r" =
        some [itemKeep] ∧
      ¬ itemNew ∈ [itemKeep] :=
  ⟨rfl,
   c2_eviction_law cacheNewKeep commitsB "r" itemNew [itemNew, itemKeep] "2025"
     true rfl (List.mem_cons_self _ _) rfl (by decide) (by decide) (by decide)
     [itemKeep] rfl⟩

/-- C9: a cached record whose `url` field is missing, empty or not a string
extracts the empty sha, and such a record is never classified as stale nor
evicted by `clean_stale_cache` (whatever the canonical list and the mode),
provided its `timestamp` field passes the string check. -/
theorem c9_empty_sha_never_evicted :
    (∀ it : Jobj, jget it "url" = none → extract_sha_from_cache_item it = "") ∧
    (∀ it : Jobj, jget it "url" = some (JValue.str "") →
      extract_sha_from_cache_item it = "") ∧
    (∀ it : Jobj, ∀ v, jget it "url" = some v → (∀ s, v ≠ JValue.str s) →
      extract_sha_from_cache_item it = "") ∧
    ∀ (cd : CacheData) (commits : List Jobj) (repo : String) (item : Jobj)
      (items : List Jobj) (ts : String) (isApi : Bool),
      cacheGet cd repo = some items → item ∈ items → itemTs item = some ts →
      extract_sha_from_cache_item item = "" →
      ∃ items2,
        cacheGet (clean_stale_cache cd commits repo isApi) repo = some items2 ∧
          item ∈ items2 := by
  refine ⟨?_, ?_, ?_, ?_⟩
  · intro it h
    unfold extract_sha_from_cache_item
    rw [h]
  · intro it h
    unfold extract_sha_from_cache_item
    rw [h]
    rfl
  · intro it v h hv
    unfold extract_sha_from_cache_item
    rw [h]
    cases v with
    | str s => exact absurd rfl (hv s)
    | num n => rfl
    | obj f => rfl
    | arr e => rfl
  · intro cd commits repo item items ts isApi h1 h2 h3 h4
    by_cases hcond : isApi = true ∧ minTsOf commits ≠ "" ∧ maxTsOf commits ≠ "" ∧
        pyStrLt ts (minTsOf commits) = true
    · obtain ⟨hisApi, ha, hb, hc⟩ := hcond
      subst hisApi
      have hout := mem_partition_out items _ _ item ts h2 h3 ha hb hc
      simp only [clean_stale_cache, h1]
      split
      · exact ⟨items, h1, h2⟩
      · split
        · next hemp =>
          exfalso
          rw [List.isEmpty_iff] at hemp
          exact List.ne_nil_of_mem (List.mem_append_left _ hout) hemp
        · exact ⟨_, cacheGet_cacheSet cd repo items _ h1,
            List.mem_append_left _ hout⟩
    · have hin := mem_partition_in items _ _ isApi item ts h2 h3 hcond
      have hnot : ¬ extract_sha_from_cache_item item ∈
          (cachedShasOf (partition_cached_items items (minTsOf commits)
            (maxTsOf commits) isApi).1).filter
              (fun s => ¬ s ∈ shaSetOf commits) := by
        intro hmem
        have hshas := (List.mem_filter.mp hmem).1
        rw [h4] at hshas
        exact empty_not_mem_cachedShasOf _ hshas
      have hfilter : item ∈ (partition_cached_items items (minTsOf commits)
          (maxTsOf commits) isApi).1.filter
            (fun it => ¬ extract_sha_from_cache_item it ∈
              ((cachedShasOf (partition_cached_items items (minTsOf commits)
                (maxTsOf commits) isApi).1).filter
                  (fun s => ¬ s ∈ shaSetOf commits))) :=
        List.mem_filter.mpr ⟨hin, decide_eq_true hnot⟩
      simp only [clean_stale_cache, h1]
      split
      · exact ⟨items, h1, h2⟩
      · split
        · next hemp =>
          exfalso
          rw [List.isEmpty_iff] at hemp
          exact List.ne_nil_of_mem (List.mem_append_right _ hfilter) hemp
        · exact ⟨_, cacheGet_cacheSet cd repo items _ h1,
            List.mem_append_right _ hfilter⟩

/-- Cached record with no `url` field at all (timestamp inside the window). -/
def itemNoUrl : Jobj := [("timestamp", JValue.str "2025")]

/-- Cache holding the url-less record next to an evictable one. -/
def cacheMix : CacheData := [("r", [itemNew, itemNoUrl])]

/-- Witness for C9: during a reconciliation that does evict a stale record,
the url-less record is kept. -/
theorem c9_empty_sha_never_evicted_witness :
    ∃ items2,
      cacheGet (clean_stale_cache cacheMix commitsB "r" false) "r" =
          some items2 ∧
        itemNoUrl ∈ items2 :=
  c9_empty_sha_never_evicted.2.2.2 cacheMix commitsB "r" itemNoUrl
    [itemNew, itemNoUrl] "2025" false rfl
    (List.mem_cons_of_mem _ (List.mem_cons_self _ _)) rfl rfl
/-- Local-history version of commit `aaa`, authored 2024-01. -/
def commitLocalA : Jobj := mkCommit "aaa" "2024-01"

/-- Remote version of commit `aaa` with a fresher authorship date. -/
def commitRemoteA : Jobj := mkCommit "aaa" "2024-06"

/-- Commit `bbb`, seen only by the remote source. -/
def commitRemoteB : Jobj := mkCommit "bbb" "2024-05"

/-- C3: the claim asserts a per-sha merge of the two sources.  The code has
no merge: when the local git-log list is non-empty it is returned verbatim
and the remote list is never consulted, so the remote-only commit `bbb` is
dropped and the staler local version of `aaa` is kept, contradicting both
the freshness rule and the keep-source-exclusive-commits rule. -/
theorem c3_merge_counterexample :
    fetch_commits_with_fallback true (GitLogResult.ok [commitLocalA])
        [commitRemoteA, commitRemoteB] = ([commitLocalA], false) ∧
    jget commitRemoteB "sha" = some (JValue.str "bbb") ∧
    ¬ "bbb" ∈ shaSetOf
        (fetch_commits_with_fallback true (GitLogResult.ok [commitLocalA])
          [commitRemoteA, commitRemoteB]).1 ∧
    commitAuthorDate commitLocalA = some "2024-01" ∧
    commitAuthorDate commitRemoteA = some "2024-06" ∧
    pyStrLt "2024-01" "2024-06" = true :=
  ⟨rfl, rfl, by decide, rfl, rfl, by decide⟩

/-- C3 (amended): there is no merge.  A non-empty local-history list is used
verbatim with the remote result ignored; in every other case the remote
listing is used verbatim when non-empty, and the result is empty otherwise. -/
theorem c3_local_priority_no_merge :
    (∀ (cs api : List Jobj), cs ≠ [] →
      fetch_commits_with_fallback true (GitLogResult.ok cs) api = (cs, false)) ∧
    (∀ api : List Jobj,
      fetch_commits_with_fallback true GitLogResult.noData api =
          apiFallbackResult api ∧
        fetch_commits_with_fallback true GitLogResult.noIdentity api =
          apiFallbackResult api) ∧
    (∀ (g : GitLogResult) (api : List Jobj),
      fetch_commits_with_fallback false g api = apiFallbackResult api) ∧
    (∀ api : List Jobj, api ≠ [] → apiFallbackResult api = (api, true)) ∧
    apiFallbackResult [] = ([], false) := by
  refine ⟨?_, ?_, ?_, ?_, rfl⟩
  · intro cs api hne
    have : cs.isEmpty = false := by simpa [List.isEmpty_iff] using hne
    simp [fetch_commits_with_fallback, this]
  · intro api
    exact ⟨rfl, rfl⟩
  · intro g api
    rfl
  · intro api hne
    have : api.isEmpty = false := by simpa [List.isEmpty_iff] using hne
    simp [apiFallbackResult, this]

/-- Witness for the amended C3 theorem at concrete inputs. -/
theorem c3_local_priority_no_merge_witness :
    fetch_commits_with_fallback true (GitLogResult.ok [commitLocalA])
        [commitRemoteA, commitRemoteB] = ([commitLocalA], false) ∧
      apiFallbackResult [commitRemoteA, commitRemoteB] =
        ([commitRemoteA, commitRemoteB], true) :=
  ⟨c3_local_priority_no_merge.1 [commitLocalA] [commitRemoteA, commitRemoteB]
     (by simp),
   c3_local_priority_no_merge.2.2.2.1 [commitRemoteA, commitRemoteB] (by simp)⟩

/-- Canonical commit object carrying the learned author identity
`A <a@b>`. -/
def commitAuthorA : Jobj :=
  [("commit", JValue.obj
    [("author", JValue.obj
      [("name", JValue.str "A"), ("email", JValue.str "a@b")])])]

/-- Paged API: a full first page, then a transport failure on page 2. -/
def apiFailPage2 : Nat → ApiResult := fun p =>
  if p = 1 then ApiResult.ok (List.replicate 100 commitAuthorA)
  else ApiResult.fail

/-- C4: the claim asserts the learner returns the empty set on any transport
failure during its queries.  Refuted: a failure on the second page merely
stops pagination, and the identities learned from the first page are
returned. -/
theorem c4_transport_failure_counterexample :
    apiFailPage2 2 = ApiResult.fail ∧
    learn_author_identities_from_api apiFailPage2 = ["A <a@b>"] :=
  ⟨rfl, by decide⟩

/-- C4 (amended): a transport failure stops the pagination and the learner
returns the identities accumulated so far; in particular it returns the
empty set when the very first page's query fails. -/
theorem c4_first_page_failure_empty (api : Nat → ApiResult)
    (h : api 1 = ApiResult.fail) :
    learn_author_identities_from_api api = [] := by
  simp [learn_author_identities_from_api, learnPages, h]

/-- Witness for the amended C4 theorem: an always-failing transport yields
the empty identity set. -/
theorem c4_first_page_failure_empty_witness :
    learn_author_identities_from_api (fun _ => ApiResult.fail) = [] :=
  c4_first_page_failure_empty (fun _ => ApiResult.fail) rfl
theorem jget_mkCommit_sha (a b : String) :
    jget (mkCommit a b) "sha" = some (JValue.str a) := rfl

theorem pairsFold_inv (pairs : List (String × String)) (seen : List String)
    (acc : List Jobj)
    (hinv : ∀ c ∈ acc, ∃ s, jget c "sha" = some (JValue.str s) ∧ s ∈ seen)
    (hnd : (acc.map (fun c => jget c "sha")).Nodup) :
    (∀ c ∈ (pairs.foldl
        (fun (st : List String × List Jobj) p =>
          if p.1 ∈ st.1 then st
          else (p.1 :: st.1, st.2 ++ [mkCommit p.1 p.2])) (seen, acc)).2,
      ∃ s, jget c "sha" = some (JValue.str s) ∧
        s ∈ (pairs.foldl
          (fun (st : List String × List Jobj) p =>
            if p.1 ∈ st.1 then st
            else (p.1 :: st.1, st.2 ++ [mkCommit p.1 p.2])) (seen, acc)).1) ∧
    ((pairs.foldl
        (fun (st : List String × List Jobj) p =>
          if p.1 ∈ st.1 then st
          else (p.1 :: st.1, st.2 ++ [mkCommit p.1 p.2])) (seen, acc)).2.map
      (fun c => jget c "sha")).Nodup := by
  induction pairs generalizing seen acc with
  | nil => exact ⟨hinv, hnd⟩
  | cons p rest ih =>
    simp only [List.foldl_cons]
    by_cases hp : p.1 ∈ seen
    · rw [if_pos hp]
      exact ih seen acc hinv hnd
    · rw [if_neg hp]
      apply ih
      · intro c hc
        rcases List.mem_append.mp hc with hcl | hcr
        · obtain ⟨s, hs, hseen⟩ := hinv c hcl
          exact ⟨s, hs, List.mem_cons_of_mem _ hseen⟩
        · rcases List.mem_singleton.mp hcr with rfl
          exact ⟨p.1, jget_mkCommit_sha _ _, List.mem_cons_self _ _⟩
      · rw [List.map_append]
        rw [List.nodup_append]
        refine ⟨hnd, List.nodup_singleton _, ?_⟩
        intro v hv hv2
        simp only [List.map_cons, List.map_nil, List.mem_singleton] at hv2
        subst hv2
        obtain ⟨c, hc, heq⟩ := List.mem_map.mp hv
        obtain ⟨s, hs, hseen⟩ := hinv c hc
        rw [hs] at heq
        injection heq with he
        injection he with he2
        exact hp (he2 ▸ hseen)

theorem collectCommits_inv (gitLog : String → String × Int) :
    ∀ (ids : List String) (seen : List String) (acc : List Jobj),
      (∀ c ∈ acc, ∃ s, jget c "sha" = some (JValue.str s) ∧ s ∈ seen) →
      (acc.map (fun c => jget c "sha")).Nodup →
      ((collectCommits gitLog ids seen acc).2.map
        (fun c => jget c "sha")).Nodup := by
  intro ids
  induction ids with
  | nil =>
    intro seen acc _ hnd
    exact hnd
  | cons a rest ih =>
    intro seen acc hinv hnd
    simp only [collectCommits]
    by_cases hrc : (gitLog a).2 ≠ 0
    · rw [if_pos hrc]
      exact ih seen acc hinv hnd
    · rw [if_neg hrc]
      have h := pairsFold_inv (pairUp (parseLines (gitLog a).1)) seen acc hinv hnd
      exact ih _ _ h.1 h.2

/-- C5: the local-history read returns the `NoIdentity` outcome exactly when
the known-identity set is empty, and a successful read never lists the same
commit sha twice, however many learned identities matched it. -/
theorem c5_noidentity_and_dedup :
    (∀ (identities : List String) (gitLog : String → String × Int),
      get_commits_from_git_log identities gitLog = GitLogResult.noIdentity ↔
        identities = []) ∧
    (∀ (identities : List String) (gitLog : String → String × Int)
      (cs : List Jobj),
      get_commits_from_git_log identities gitLog = GitLogResult.ok cs →
      (cs.map (fun c => jget c "sha")).Nodup) := by
  constructor
  · intro ids gitLog
    constructor
    · intro h
      by_contra hne
      have hemp : ids.isEmpty = false := by
        simpa [List.isEmpty_iff] using hne
      simp only [get_commits_from_git_log, hemp, Bool.false_eq_true,
        if_false] at h
      revert h
      split
      · intro h
        exact GitLogResult.noConfusion h
      · intro h
        exact GitLogResult.noConfusion h
    · intro h
      subst h
      rfl
  · intro ids gitLog cs h
    have hemp : ids.isEmpty = false := by
      by_contra hne
      have : ids.isEmpty = true := by simpa using hne
      simp only [get_commits_from_git_log, this, if_true] at h
      exact GitLogResult.noConfusion h
    simp only [get_commits_from_git_log, hemp, Bool.false_eq_true,
      if_false] at h
    have hnd := collectCommits_inv gitLog ids [] [] (by simp) (by simp)
    revert h
    split
    · intro h
      exact GitLogResult.noConfusion h
    · intro h
      injection h with he
      rw [← he]
      exact hnd

/-- Transcript of `git log` producing a duplicated sha `s1`. -/
def glogTwo : String → String × Int := fun _ => ("s1\n2024\ns2\n2025\ns1\n2024", 0)

/-- Witness for C5: the empty identity set yields `NoIdentity`, and a
successful read over two identities (each matching the same commits, with a
duplicated line pair inside one invocation) lists each sha once. -/
theorem c5_noidentity_and_dedup_witness :
    get_commits_from_git_log [] glogTwo = GitLogResult.noIdentity ∧
    (([mkCommit "s1" "2024", mkCommit "s2" "2025"]).map
      (fun c => jget c "sha")).Nodup :=
  ⟨(c5_noidentity_and_dedup.1 [] glogTwo).mpr rfl,
   c5_noidentity_and_dedup.2 ["idA", "idB"] glogTwo
     [mkCommit "s1" "2024", mkCommit "s2" "2025"] (by rfl)⟩
theorem calcStats_foldl_images (inc : Bool) :
    ∀ (files : List Jobj) (a d i : Int),
      (files.foldl (calcStatsStep inc) (a, d, i)).2.2 =
        i + ((files.filter (fun f => inc && imageAddedFile f)).length : Int) := by
  intro files
  induction files with
  | nil =>
    intro a d i
    simp
  | cons f rest ih =>
    intro a d i
    simp only [List.foldl_cons, List.filter_cons]
    by_cases hf : (inc && imageAddedFile f) = true
    · simp only [hf, if_true]
      simp only [calcStatsStep, hf, if_true]
      rw [ih]
      simp only [List.length_cons]
      push_cast
      ring
    · have hf2 : (inc && imageAddedFile f) = false := by simpa using hf
      simp only [hf2, Bool.false_eq_true, if_false]
      simp only [calcStatsStep, hf2, Bool.false_eq_true, if_false]
      rw [ih]
      ring

/-- C6: the stats computation counts a changed file toward `images` exactly
when its status is the string `"added"` and its (string) filename ends,
case-insensitively, in one of the eight fixed image extensions; and a
`--numstat` line whose count fields are the binary marker `-` still yields a
file record (with zero additions and deletions) that can be image-counted,
as the concrete binary-logo commit shows. -/
theorem c6_image_stats :
    (∀ cd : Jobj,
      (calculate_commit_stats cd true).2.2 =
        (((filesOf cd).filter imageAddedFile).length : Int)) ∧
    (∀ s : String,
      is_image_file s =
        (strEndsWithB (strLower s) ".png" ||
          (strEndsWithB (strLower s) ".jpg" ||
            (strEndsWithB (strLower s) ".jpeg" ||
              (strEndsWithB (strLower s) ".gif" ||
                (strEndsWithB (strLower s) ".bmp" ||
                  (strEndsWithB (strLower s) ".svg" ||
                    (strEndsWithB (strLower s) ".webp" ||
                      (strEndsWithB (strLower s) ".ico" || false))))))))) ∧
    (∀ (smap : List (String × String)) (fn : String),
      numstatEntry smap ["-", "-", fn] = some
        [("additions", JValue.num 0), ("deletions", JValue.num 0),
         ("filename", JValue.str fn),
         ("status", JValue.str
           (if statusLookup smap fn = "A" then "added" else "modified"))]) ∧
    calculate_commit_stats
        (get_commit_details_from_git "A\tlogo.png\nM\treadme.md"
          "-\t-\tlogo.png\n3\t1\treadme.md" 0) true = (3, 1, 1) := by
  refine ⟨?_, ?_, ?_, by rfl⟩
  · intro cd
    unfold calculate_commit_stats
    rw [calcStats_foldl_images]
    simp [Bool.true_and]
  · intro s
    rfl
  · intro smap fn
    rfl

/-- Whether a canonical commit lacks a usable `commit.author.date`: the
field (or one of the containing dicts) is missing, or the date is the empty
string. -/
def lacksAuthorDate (commit : Jobj) : Bool :=
  match jgetObjD commit "commit" with
  | none => true
  | some cd =>
    match jgetObjD cd "author" with
    | none => true
    | some ad =>
      match jget ad "date" with
      | none => true
      | some (JValue.str s) => s = ""
      | some _ => false

/-- C10: for a canonical commit without a (non-empty) authorship date, the
timestamp stored in the freshly created cache record is the wall clock of
the processing moment, so two runs at different times store different
values. -/
theorem c10_missing_date_uses_clock (commit : Jobj) (now : String)
    (h : lacksAuthorDate commit = true) :
    get_commit_timestamp commit now = JValue.str now ∧
    (∀ (idx : Nat) (url : String) (a d i : Int),
      jget (mkCacheRecord idx url a d i (get_commit_timestamp commit now))
        "timestamp" = some (JValue.str now)) ∧
    ∀ now2 : String, now ≠ now2 →
      get_commit_timestamp commit now ≠ get_commit_timestamp commit now2 := by
  have hmain : ∀ nw : String, get_commit_timestamp commit nw = JValue.str nw := by
    intro nw
    rcases hc : jgetObjD commit "commit" with _ | cd
    · simp [get_commit_timestamp, hc]
    · rcases ha : jgetObjD cd "author" with _ | ad
      · simp [get_commit_timestamp, hc, ha]
      · rcases hd : jget ad "date" with _ | u
        · simp [get_commit_timestamp, hc, ha, hd]
        · simp only [lacksAuthorDate, hc, ha, hd] at h
          cases u with
          | str s =>
            have hs : s = "" := by simpa using h
            simp [get_commit_timestamp, hc, ha, hd, hs]
          | num n => exact absurd h (by simp)
          | obj f => exact absurd h (by simp)
          | arr e => exact absurd h (by simp)
  refine ⟨hmain now, ?_, ?_⟩
  · intro idx url a d i
    rw [hmain now]
    rfl
  · intro now2 hne
    rw [hmain now, hmain now2]
    intro he
    injection he with he2
    exact hne he2

/-- Witness for C10: the empty commit object lacks a date; at clock reading
`T1` the stored timestamp is `T1`, and a run at `T2` stores a different
one. -/
theorem c10_missing_date_uses_clock_witness :
    get_commit_timestamp ([] : Jobj) "T1" = JValue.str "T1" ∧
    jget (mkCacheRecord 1 "u" 0 0 0 (get_commit_timestamp ([] : Jobj) "T1"))
        "timestamp" = some (JValue.str "T1") ∧
    get_commit_timestamp ([] : Jobj) "T1" ≠ get_commit_timestamp ([] : Jobj) "T2" :=
  ⟨(c10_missing_date_uses_clock [] "T1" rfl).1,
   (c10_missing_date_uses_clock [] "T1" rfl).2.1 1 "u" 0 0 0,
   (c10_missing_date_uses_clock [] "T1" rfl).2.2 "T2" (by decide)⟩
/-- Record list of one repository, empty when the repository has no entry
(`cache_data.get(repo, [])`-like view used to state cache growth). -/
def cacheListOf (cd : CacheData) (repo : String) : List Jobj :=
  (cacheGet cd repo).getD []

theorem cacheGet_map_append (cd : CacheData) (repo : String) (rec : Jobj) :
    cacheGet (cd.map (fun p => if p.1 = repo then (p.1, p.2 ++ [rec]) else p))
        repo =
      (cacheGet cd repo).map (fun l => l ++ [rec]) := by
  induction cd with
  | nil => rfl
  | cons hd tl ih =>
    by_cases hk : hd.1 = repo
    · simp only [List.map_cons]
      rw [if_pos hk]
      simp [cacheGet, hk]
    · simp only [List.map_cons]
      rw [if_neg hk]
      simp [cacheGet, hk, ih]

theorem cacheGet_none_any (cd : CacheData) (repo : String)
    (h : cacheGet cd repo = none) : cd.any (fun p => p.1 = repo) = false := by
  induction cd with
  | nil => rfl
  | cons hd tl ih =>
    simp only [cacheGet] at h
    by_cases hk : hd.1 = repo
    · rw [if_pos hk] at h
      exact Option.noConfusion h
    · rw [if_neg hk] at h
      simp [List.any_cons, hk, ih h]

theorem cacheGet_none_of_any_false (cd : CacheData) (repo : String)
    (h : cd.any (fun p => p.1 = repo) = false) : cacheGet cd repo = none := by
  induction cd with
  | nil => rfl
  | cons hd tl ih =>
    simp only [List.any_cons, Bool.or_eq_false_iff, decide_eq_false_iff_not] at h
    simp only [cacheGet]
    rw [if_neg h.1]
    exact ih h.2

theorem cacheGet_append_right (cd l2 : CacheData) (repo : String)
    (h : cacheGet cd repo = none) :
    cacheGet (cd ++ l2) repo = cacheGet l2 repo := by
  induction cd with
  | nil => rfl
  | cons hd tl ih =>
    simp only [cacheGet] at h
    by_cases hk : hd.1 = repo
    · rw [if_pos hk] at h
      exact Option.noConfusion h
    · rw [if_neg hk] at h
      simp only [List.cons_append, cacheGet]
      rw [if_neg hk]
      exact ih h

theorem cacheListOf_cacheAppend (cd : CacheData) (repo : String) (rec : Jobj) :
    cacheListOf (cacheAppend cd repo rec) repo = cacheListOf cd repo ++ [rec] := by
  unfold cacheAppend
  by_cases hany : cd.any (fun p => p.1 = repo) = true
  · rw [if_pos hany]
    unfold cacheListOf
    rw [cacheGet_map_append]
    rcases hcg : cacheGet cd repo with _ | l
    · rw [cacheGet_none_any cd repo hcg] at hany
      exact Bool.noConfusion hany
    · simp
  · have hanyf : cd.any (fun p => p.1 = repo) = false := Bool.eq_false_iff.mpr hany
    rw [if_neg hany]
    have hnone := cacheGet_none_of_any_false cd repo hanyf
    unfold cacheListOf
    rw [cacheGet_append_right cd _ repo hnone, hnone]
    simp [cacheGet]
theorem processCommitStep_cache (owner repoName : String) (hasRepoPath : Bool)
    (gitDetails apiDetails : String → Jobj) (includeImages : Bool)
    (now : String) (acc : ProcAcc) (commit : Jobj) :
    (processCommitStep owner repoName hasRepoPath gitDetails apiDetails
        includeImages now acc commit).cache = acc.cache ∨
    ∃ (rec : Jobj) (url : String),
      (processCommitStep owner repoName hasRepoPath gitDetails apiDetails
          includeImages now acc commit).cache =
        cacheAppend acc.cache repoName rec ∧
      jget rec "url" = some (JValue.str url) ∧
      find_cached_commit acc.cache repoName url = none := by
  unfold processCommitStep
  rcases hsha : jget commit "sha" with _ | v
  · simp only [hsha]
    exact Or.inl (by trivial)
  · cases v with
    | str sha =>
      simp only [hsha]
      by_cases hemp : sha = ""
      · rw [if_pos hemp]
        exact Or.inl (by trivial)
      · rw [if_neg hemp]
        rcases hfind : find_cached_commit acc.cache repoName
            ("https://github.com/" ++ owner ++ "/" ++ repoName ++ "/commit/" ++
              sha) with _ | cached
        · simp only [hfind]
          exact Or.inr ⟨_, _, rfl, rfl, hfind⟩
        · simp only [hfind]
          exact Or.inl (by trivial)
    | num n =>
      simp only [hsha]
      exact Or.inl (by trivial)
    | obj f =>
      simp only [hsha]
      exact Or.inl (by trivial)
    | arr e =>
      simp only [hsha]
      exact Or.inl (by trivial)

theorem processStep_extends (owner repoName : String) (hasRepoPath : Bool)
    (gitDetails apiDetails : String → Jobj) (includeImages : Bool)
    (now : String) (acc : ProcAcc) (commit : Jobj) (base : List Jobj)
    (h : ∃ e0, cacheListOf acc.cache repoName = base ++ e0 ∧
      ∀ r ∈ e0, ∀ c ∈ base, jget c "url" ≠ jget r "url") :
    ∃ e1,
      cacheListOf (processCommitStep owner repoName hasRepoPath gitDetails
          apiDetails includeImages now acc commit).cache repoName =
        base ++ e1 ∧
      ∀ r ∈ e1, ∀ c ∈ base, jget c "url" ≠ jget r "url" := by
  obtain ⟨e0, hlist, hprop⟩ := h
  rcases processCommitStep_cache owner repoName hasRepoPath gitDetails
      apiDetails includeImages now acc commit with hsame |
      ⟨rec, url, heq, hrecurl, hfind⟩
  · exact ⟨e0, hsame ▸ hlist, hprop⟩
  · refine ⟨e0 ++ [rec], ?_, ?_⟩
    · rw [heq, cacheListOf_cacheAppend, hlist, List.append_assoc]
    · intro r hr c hc
      rcases List.mem_append.mp hr with hr0 | hr1
      · exact hprop r hr0 c hc
      · rcases List.mem_singleton.mp hr1 with rfl
        intro hceq
        rw [hrecurl] at hceq
        unfold find_cached_commit at hfind
        rcases hcg : cacheGet acc.cache repoName with _ | items
        · have hnil : cacheListOf acc.cache repoName = [] := by
            simp [cacheListOf, hcg]
          rw [hlist] at hnil
          have hbase : base = [] := (List.append_eq_nil.mp hnil).1
          rw [hbase] at hc
          exact List.not_mem_nil c hc
        · rw [hcg] at hfind
          have hcmem : c ∈ items := by
            have hitems : items = base ++ e0 := by
              have := hlist
              rw [cacheListOf, hcg] at this
              simpa using this
            rw [hitems]
            exact List.mem_append_left _ hc
          have hall := List.find?_eq_none.mp hfind c hcmem
          apply hall
          simp [hceq]

theorem processFold_extends (owner repoName : String) (hasRepoPath : Bool)
    (gitDetails apiDetails : String → Jobj) (includeImages : Bool)
    (now : String) :
    ∀ (commits : List Jobj) (acc : ProcAcc) (base : List Jobj),
      (∃ e0, cacheListOf acc.cache repoName = base ++ e0 ∧
        ∀ r ∈ e0, ∀ c ∈ base, jget c "url" ≠ jget r "url") →
      ∃ e1,
        cacheListOf
            (commits.foldl
              (processCommitStep owner repoName hasRepoPath gitDetails
                apiDetails includeImages now) acc).cache repoName =
          base ++ e1 ∧
        ∀ r ∈ e1, ∀ c ∈ base, jget c "url" ≠ jget r "url" := by
  intro commits
  induction commits with
  | nil =>
    intro acc base h
    simpa using h
  | cons commit rest ih =>
    intro acc base h
    rw [List.foldl_cons]
    exact ih _ base (processStep_extends owner repoName hasRepoPath gitDetails
      apiDetails includeImages now acc commit base h)

/-- C8: processing a repository's commits only ever appends fresh records to
that repository's cache list — every previously cached record survives
verbatim (so its stats tuple is never overwritten), and every appended
record has a url that no previously cached record carried (stats are
computed only for commits with no cached record). -/
theorem c8_cached_records_immutable (owner repoName : String)
    (hasRepoPath : Bool) (gitDetails apiDetails : String → Jobj)
    (includeImages : Bool) (now : String) (allCommits : List Jobj)
    (cacheData : CacheData) :
    ∃ extra,
      cacheListOf (process_all_commits owner repoName hasRepoPath gitDetails
          apiDetails includeImages now allCommits cacheData).cache repoName =
        cacheListOf cacheData repoName ++ extra ∧
      ∀ r ∈ extra, ∀ c ∈ cacheListOf cacheData repoName,
        jget c "url" ≠ jget r "url" := by
  unfold process_all_commits
  exact processFold_extends owner repoName hasRepoPath gitDetails apiDetails
    includeImages now allCommits _ _ ⟨[], by simp, by simp⟩
theorem jget_map_set_ne (o : Jobj) (k k2 : String) (v : JValue) (h : ¬ k = k2) :
    jget (o.map (fun p => if p.1 = k then (k, v) else p)) k2 = jget o k2 := by
  induction o with
  | nil => rfl
  | cons hd tl ih =>
    simp only [List.map_cons]
    by_cases hk : hd.1 = k
    · rw [if_pos hk]
      simp only [jget]
      rw [if_neg h, if_neg (hk ▸ h)]
      exact ih
    · rw [if_neg hk]
      simp only [jget]
      by_cases hk2 : hd.1 = k2
      · rw [if_pos hk2, if_pos hk2]
      · rw [if_neg hk2, if_neg hk2]
        exact ih

theorem jget_append_ne (o : Jobj) (k k2 : String) (v : JValue) (h : ¬ k = k2) :
    jget (o ++ [(k, v)]) k2 = jget o k2 := by
  induction o with
  | nil =>
    simp only [List.nil_append, jget]
    rw [if_neg h]
  | cons hd tl ih =>
    simp only [List.cons_append, jget]
    by_cases hk2 : hd.1 = k2
    · rw [if_pos hk2, if_pos hk2]
    · rw [if_neg hk2, if_neg hk2]
      exact ih

theorem jget_jset_ne (o : Jobj) (k k2 : String) (v : JValue) (h : ¬ k = k2) :
    jget (jset o k v) k2 = jget o k2 := by
  unfold jset
  by_cases hany : o.any (fun p => p.1 = k) = true
  · rw [if_pos hany]
    exact jget_map_set_ne o k k2 v h
  · rw [if_neg hany]
    exact jget_append_ne o k k2 v h

theorem jget_any (o : Jobj) (k : String) (x : JValue) (h : jget o k = some x) :
    o.any (fun p => p.1 = k) = true := by
  induction o with
  | nil => simp [jget] at h
  | cons hd tl ih =>
    simp only [jget] at h
    by_cases hk : hd.1 = k
    · simp [List.any_cons, hk]
    · rw [if_neg hk] at h
      simp [List.any_cons, hk, ih h]

theorem jget_none_of_any_false (o : Jobj) (k : String)
    (h : o.any (fun p => p.1 = k) = false) : jget o k = none := by
  induction o with
  | nil => rfl
  | cons hd tl ih =>
    simp only [List.any_cons, Bool.or_eq_false_iff, decide_eq_false_iff_not] at h
    simp only [jget]
    rw [if_neg h.1]
    exact ih h.2

theorem jget_map_set_self (o : Jobj) (k : String) (v : JValue)
    (h : o.any (fun p => p.1 = k) = true) :
    jget (o.map (fun p => if p.1 = k then (k, v) else p)) k = some v := by
  induction o with
  | nil => simp at h
  | cons hd tl ih =>
    simp only [List.map_cons]
    by_cases hk : hd.1 = k
    · rw [if_pos hk]
      simp [jget]
    · rw [if_neg hk]
      simp only [jget]
      rw [if_neg hk]
      apply ih
      simp only [List.any_cons, Bool.or_eq_true, decide_eq_true_eq] at h
      rcases h with h | h
      · exact absurd h hk
      · exact h

theorem jget_append_self (o : Jobj) (k : String) (v : JValue)
    (h : jget o k = none) : jget (o ++ [(k, v)]) k = some v := by
  induction o with
  | nil => simp [jget]
  | cons hd tl ih =>
    simp only [jget] at h
    by_cases hk : hd.1 = k
    · rw [if_pos hk] at h
      exact Option.noConfusion h
    · rw [if_neg hk] at h
      simp only [List.cons_append, jget]
      rw [if_neg hk]
      exact ih h

theorem jget_jset_self (o : Jobj) (k : String) (v : JValue) :
    jget (jset o k v) k = some v := by
  unfold jset
  by_cases hany : o.any (fun p => p.1 = k) = true
  · rw [if_pos hany]
    exact jget_map_set_self o k v hany
  · rw [if_neg hany]
    exact jget_append_self o k v
      (jget_none_of_any_false o k (Bool.eq_false_iff.mpr hany))

theorem tsKey_jset_index (c : Jobj) (v : JValue) :
    tsKey (jset c "index" v) = tsKey c := by
  unfold tsKey
  rw [jget_jset_ne c "index" "timestamp" v (by decide)]
instance : IsTotal Jobj tsLe :=
  ⟨fun a b => by
    unfold tsLe pyStrLe
    exact charListLeB_total _ _⟩

instance : IsTrans Jobj tsLe :=
  ⟨fun a b c h1 h2 => by
    unfold tsLe pyStrLe at h1 h2 ⊢
    exact charListLeB_trans _ _ _ h1 h2⟩

theorem reindexFrom_mem (l : List Jobj) (i : Nat) (b : Jobj)
    (hb : b ∈ reindexFrom i l) :
    ∃ c ∈ l, ∃ j : Nat, b = jset c "index" (JValue.num (Int.ofNat j)) := by
  induction l generalizing i with
  | nil => simp [reindexFrom] at hb
  | cons a rest ih =>
    simp only [reindexFrom] at hb
    rcases List.mem_cons.mp hb with h | h
    · exact ⟨a, List.mem_cons_self _ _, i, h⟩
    · obtain ⟨c, hc, j, hj⟩ := ih (i + 1) h
      exact ⟨c, List.mem_cons_of_mem _ hc, j, hj⟩

theorem reindexFrom_pairwise (l : List Jobj) (i : Nat)
    (h : List.Pairwise tsLe l) : List.Pairwise tsLe (reindexFrom i l) := by
  induction l generalizing i with
  | nil => exact List.Pairwise.nil
  | cons a rest ih =>
    rcases List.pairwise_cons.mp h with ⟨ha, hrest⟩
    simp only [reindexFrom]
    refine List.pairwise_cons.mpr ⟨?_, ih (i + 1) hrest⟩
    intro b hb
    obtain ⟨c, hc, j, hj⟩ := reindexFrom_mem rest (i + 1) b hb
    have := ha c hc
    unfold tsLe at this ⊢
    rw [hj, tsKey_jset_index, tsKey_jset_index]
    exact this

theorem reindexFrom_length (l : List Jobj) (i : Nat) :
    (reindexFrom i l).length = l.length := by
  induction l generalizing i with
  | nil => rfl
  | cons a rest ih =>
    simp [reindexFrom, ih]

theorem reindexFrom_jget_index (l : List Jobj) (i : Nat) :
    (reindexFrom i l).map (fun c => jget c "index") =
      (List.range' i l.length).map (fun j => some (JValue.num (Int.ofNat j))) := by
  induction l generalizing i with
  | nil => rfl
  | cons a rest ih =>
    simp only [reindexFrom, List.map_cons, List.length_cons, List.range',
      jget_jset_self]
    rw [ih]

theorem cacheStats_inner (items : List Jobj) :
    ∀ (a d i : Int),
      items.foldl cacheStatsStep (a, d, i) =
        (a + ((items.map (fun c => intFieldD c "additions")).sum),
         d + ((items.map (fun c => intFieldD c "deletions")).sum),
         i + ((items.map (fun c => intFieldD c "images")).sum)) := by
  induction items with
  | nil =>
    intro a d i
    simp
  | cons c rest ih =>
    intro a d i
    simp only [List.foldl_cons, cacheStatsStep, List.map_cons, List.sum_cons]
    rw [ih]
    refine congrArg₂ _ (by ring) (congrArg₂ _ (by ring) (by ring))

theorem calcStats_outer (cd : CacheData) :
    ∀ (tc : Nat) (ta td ti : Int),
      cd.foldl
        (fun acc p =>
          let sums := p.2.foldl cacheStatsStep (acc.2.1, acc.2.2.1, acc.2.2.2)
          (acc.1 + p.2.length, sums.1, sums.2.1, sums.2.2)) (tc, ta, td, ti) =
      (tc + (recordsOf cd).length,
       ta + ((recordsOf cd).map (fun c => intFieldD c "additions")).sum,
       td + ((recordsOf cd).map (fun c => intFieldD c "deletions")).sum,
       ti + ((recordsOf cd).map (fun c => intFieldD c "images")).sum) := by
  induction cd with
  | nil =>
    intro tc ta td ti
    simp [recordsOf]
  | cons p rest ih =>
    intro tc ta td ti
    simp only [List.foldl_cons]
    rw [cacheStats_inner]
    rw [ih]
    simp only [recordsOf, List.map_cons, List.flatten_cons, List.length_append,
      List.map_append, List.sum_append]
    refine congrArg₂ _ (by omega)
      (congrArg₂ _ (by ring) (congrArg₂ _ (by ring) (by ring)))

theorem calculate_cache_statistics_sums (cd : CacheData) :
    calculate_cache_statistics cd =
      ((recordsOf cd).length,
       ((recordsOf cd).map (fun c => intFieldD c "additions")).sum,
       ((recordsOf cd).map (fun c => intFieldD c "deletions")).sum,
       ((recordsOf cd).map (fun c => intFieldD c "images")).sum) := by
  unfold calculate_cache_statistics
  rw [calcStats_outer]
  simp

theorem cacheGet_map_value (cd : CacheData) (repo : String)
    (f : List Jobj → List Jobj) :
    cacheGet (cd.map (fun p => (p.1, f p.2))) repo =
      (cacheGet cd repo).map f := by
  induction cd with
  | nil => rfl
  | cons hd tl ih =>
    simp only [List.map_cons, cacheGet]
    by_cases hk : hd.1 = repo
    · rw [if_pos hk, if_pos hk]
      rfl
    · rw [if_neg hk, if_neg hk]
      exact ih
theorem cacheGet_sort_and_reindex (cd : CacheData) (repo : String) :
    cacheGet (sort_and_reindex_commits cd) repo =
      (cacheGet cd repo).map
        (fun l => reindexFrom 1 (List.insertionSort tsLe l)) := by
  unfold sort_and_reindex_commits
  induction cd with
  | nil => rfl
  | cons hd tl ih =>
    simp only [List.map_cons, cacheGet]
    by_cases hk : hd.1 = repo
    · rw [if_pos hk, if_pos hk]
      rfl
    · rw [if_neg hk, if_neg hk]
      exact ih

/-- C7: the document written by `save_cache` has every repository's record
list sorted by (stringified) timestamp ascending with `index` reassigned
1..N, and a metadata block whose four totals are recomputed from the saved
record set itself — the count of records and the sums of their integer
`additions` / `deletions` / `images` fields. -/
theorem c7_save_normalizes (cd : CacheData) :
    ((save_cache_doc cd).1.total_commits =
        (recordsOf (save_cache_doc cd).2).length) ∧
    ((save_cache_doc cd).1.total_additions =
        ((recordsOf (save_cache_doc cd).2).map
          (fun c => intFieldD c "additions")).sum) ∧
    ((save_cache_doc cd).1.total_deletions =
        ((recordsOf (save_cache_doc cd).2).map
          (fun c => intFieldD c "deletions")).sum) ∧
    ((save_cache_doc cd).1.total_images =
        ((recordsOf (save_cache_doc cd).2).map
          (fun c => intFieldD c "images")).sum) ∧
    ∀ repo items, cacheGet (save_cache_doc cd).2 repo = some items →
      List.Pairwise tsLe items ∧
      items.map (fun c => jget c "index") =
        (List.range' 1 items.length).map
          (fun j => some (JValue.num (Int.ofNat j))) := by
  have hdoc : (save_cache_doc cd).2 = sort_and_reindex_commits cd := rfl
  have hmeta := calculate_cache_statistics_sums (sort_and_reindex_commits cd)
  refine ⟨?_, ?_, ?_, ?_, ?_⟩
  · show (calculate_cache_statistics (sort_and_reindex_commits cd)).1 = _
    rw [hmeta, hdoc]
  · show (calculate_cache_statistics (sort_and_reindex_commits cd)).2.1 = _
    rw [hmeta, hdoc]
  · show (calculate_cache_statistics (sort_and_reindex_commits cd)).2.2.1 = _
    rw [hmeta, hdoc]
  · show (calculate_cache_statistics (sort_and_reindex_commits cd)).2.2.2 = _
    rw [hmeta, hdoc]
  · intro repo items hget
    rw [hdoc, cacheGet_sort_and_reindex] at hget
    obtain ⟨orig, horig, hitems⟩ := Option.map_eq_some'.mp hget
    subst hitems
    constructor
    · exact reindexFrom_pairwise _ 1 (List.sorted_insertionSort tsLe orig)
    · rw [reindexFrom_jget_index, reindexFrom_length]

/-- Unsorted single-repository cache content with a stale stored index. -/
def cdSaveSample : CacheData :=
  [("r", [[("timestamp", JValue.str "2024"), ("index", JValue.num 9),
           ("additions", JValue.num 2)],
          [("timestamp", JValue.str "2020"), ("additions", JValue.num 3)]])]

/-- The record list `save_cache` writes for `cdSaveSample`: sorted by
timestamp with index 1, 2. -/
def itemsSortedSample : List Jobj :=
  [[("timestamp", JValue.str "2020"), ("additions", JValue.num 3),
    ("index", JValue.num 1)],
   [("timestamp", JValue.str "2024"), ("index", JValue.num 2),
    ("additions", JValue.num 2)]]

/-- Witness for C7 on a concrete out-of-order cache with a stale metadata
index: the saved list is sorted, reindexed 1..2, and the metadata equals the
recomputed sums. -/
theorem c7_save_normalizes_witness :
    ((save_cache_doc cdSaveSample).1.total_commits =
        (recordsOf (save_cache_doc cdSaveSample).2).length) ∧
    (List.Pairwise tsLe itemsSortedSample ∧
      itemsSortedSample.map (fun c => jget c "index") =
        (List.range' 1 itemsSortedSample.length).map
          (fun j => some (JValue.num (Int.ofNat j)))) :=
  ⟨(c7_save_normalizes cdSaveSample).1,
   (c7_save_normalizes cdSaveSample).2.2.2.2 "r" itemsSortedSample (by rfl)⟩

/-- Witness for C8 at concrete inputs: processing one uncached commit
appends to the pre-existing record list without touching it. -/
theorem c8_cached_records_immutable_witness :
    ∃ extra,
      cacheListOf (process_all_commits "o" "r" true (fun _ => [])
          (fun _ => []) true "T" [mkCommit "s1" "2024"]
          [("r", [itemKeep])]).cache "r" =
        cacheListOf [("r", [itemKeep])] "r" ++ extra ∧
      ∀ r ∈ extra, ∀ c ∈ cacheListOf [("r", [itemKeep])] "r",
        jget c "url" ≠ jget r "url" :=
  c8_cached_records_immutable "o" "r" true (fun _ => []) (fun _ => []) true
    "T" [mkCommit "s1" "2024"] [("r", [itemKeep])]
